import Mathlib

set_option maxRecDepth 4000

/-!
Shallow embedding of the cc-session-stats CLI (`src/cli.mjs`) and proofs of
the specification claims about it.

Modelling conventions:
* JS strings and file contents are `List Char` (one char per byte/code unit).
* Timestamps are integers (milliseconds since the epoch); JS `Date` objects
  are `JSDate`, whose `time` field is `none` for an Invalid Date.
* JS floating-point numbers are modelled as rationals.
* The local timezone and the current instant, which the source reads from the
  environment (`toLocaleDateString`, `Date.now()`), are explicit parameters
  `tz` (offset in ms) and `now`.
* JSON parsing of a line and JS `Date`-string parsing are abstracted as
  parameters `jp : List Char → ParsedLine` and `dp : List Char → Option ℤ`
  (`dp s = none` models `new Date(s)` yielding an Invalid Date).
-/

namespace CCStats

/-- JS whitespace characters relevant to `String.prototype.trim`. -/
def isWS (c : Char) : Bool :=
  c = ' ' || c = '\t' || c = '\n' || c = '\r' || c = '\x0b' || c = '\x0c'

/-- Model of `String.prototype.split(sep)` on char lists; splitting the
empty string gives `[[]]`. -/
def splitChar (sep : Char) : List Char → List (List Char)
  | [] => [[]]
  | c :: cs =>
    if c = sep then [] :: splitChar sep cs
    else
      match splitChar sep cs with
      | [] => [[c]]
      | l :: ls => (c :: l) :: ls

/-- Model of `Array.prototype.join(sep)` for a single-char separator. -/
def joinChar (sep : Char) : List (List Char) → List Char
  | [] => []
  | [x] => x
  | x :: xs => x ++ sep :: joinChar sep xs

/-- The bounded suffix read for the last line: up to 64 KiB from the end of
the file (`fh.read(tailBuf, 0, readSize, fileSize - readSize)`). -/
def tailChunkOf (content : List Char) : List Char :=
  content.drop (content.length - min 65536 content.length)

/-- Source `readFirstLastLine` (src/cli.mjs:40-67): first line is everything
before the first newline in an 8 KiB head read; last line is the last
fragment of the 64 KiB tail read that has a non-whitespace character
(`split('\n').filter(l => l.trim())`), defaulting to the first line;
files under 2 bytes reuse the first line; empty read gives `null`. -/
def readFirstLastLine (content : List Char) : Option (List Char × List Char) :=
  if content.length = 0 then none
  else
    let firstChunk := content.take 8192
    let firstLine := firstChunk.takeWhile (fun c => c ≠ '\n')
    if content.length < 2 then some (firstLine, firstLine)
    else
      let lines := (splitChar '\n' (tailChunkOf content)).filter
        (fun l => l.any (fun c => !isWS c))
      let lastLine := (lines.getLast?).getD firstLine
      some (firstLine, lastLine)

/-- JSON values that can appear under the `timestamp` / `ts` keys. -/
inductive JSValue
  | vnull
  | vbool (b : Bool)
  | vnum (n : ℤ)
  | vstr (s : List Char)
deriving DecidableEq

/-- JS truthiness of a `JSValue`. -/
def jsTruthy : JSValue → Bool
  | .vnull => false
  | .vbool b => b
  | .vnum n => n ≠ 0
  | .vstr s => s ≠ []

/-- A JS `Date` object; `time = none` models an Invalid Date. -/
structure JSDate where
  time : Option ℤ
deriving DecidableEq

/-- Semantics of `new Date(v)` for a primitive `v`; strings go through the abstract date
parser `dp` (a failed parse is an Invalid Date, not an exception). -/
def jsNewDate (dp : List Char → Option ℤ) : JSValue → JSDate
  | .vnum n => ⟨some n⟩
  | .vstr s => ⟨dp s⟩
  | .vbool b => ⟨some (if b then 1 else 0)⟩
  | .vnull => ⟨some 0⟩

/-- Result of `JSON.parse` on one transcript line: either a parse failure or
an object with optional `timestamp` and `ts` members (`none` = key absent). -/
inductive ParsedLine
  | invalid
  | obj (timestamp ts : Option JSValue)
deriving DecidableEq

/-- JS `a || b` on optional values (`none` plays the role of `undefined`). -/
def jsOr (a b : Option JSValue) : Option JSValue :=
  if a.elim false jsTruthy then a else b

/-- Source `parseTimestamp` (src/cli.mjs:69-76): `data.timestamp || data.ts`,
then `if (ts) return new Date(ts)`, else `null`; a JSON parse failure is
caught and also yields `null`. -/
def parseTimestamp (dp : List Char → Option ℤ) : ParsedLine → Option JSDate
  | .invalid => none
  | .obj t1 t2 =>
    match jsOr t1 t2 with
    | some v => if jsTruthy v then some (jsNewDate dp v) else none
    | none => none

/-- The nonempty dash-segments of a directory name
(`dirName.split('-').filter(Boolean)`). -/
def segmentsOf (dirName : List Char) : List (List Char) :=
  (splitChar '-' dirName).filter (fun p => p ≠ [])

/-- The home-directory branch of `cleanProjectName`: `rest = parts.slice(2)`,
drop a leading `projects` marker, join with dashes, `'~'` when empty
(src/cli.mjs:89-92). -/
def homeLabel (prest : List (List Char)) : List Char :=
  match prest with
  | [] => "~".toList
  | r0 :: rt =>
    let rest2 := if r0 = "projects".toList then rt else r0 :: rt
    let j := joinChar '-' rest2
    if j = [] then "~".toList else j

/-- Source `cleanProjectName` (src/cli.mjs:80-95). -/
def cleanProjectName (dirName : List Char) : List Char :=
  if List.isPrefixOf "-tmp".toList dirName then "/tmp".toList
  else
    match segmentsOf dirName with
    | p0 :: _ :: prest => if p0 = "home".toList then homeLabel prest else dirName
    | _ => dirName

/-- A scanned session record (src/cli.mjs:121); `stop` models the source
field `end` (a Lean keyword). -/
structure Session where
  project : List Char
  start : ℤ
  stop : ℤ
  durationHours : ℚ
  sizeBytes : ℕ
deriving DecidableEq

instance : Inhabited Session := ⟨⟨[], 0, 0, 0, 0⟩⟩

/-- Source `addSession` (src/cli.mjs:110-125): skip files under 50 bytes,
read edge lines, parse both timestamps, and record a session only when
`0 ≤ durationMs < 7*24*60*60*1000`; an Invalid Date on either side makes
`durationMs` NaN, for which both comparisons are false. -/
def addSession (jp : List Char → ParsedLine) (dp : List Char → Option ℤ)
    (project : List Char) (content : List Char) : Option Session :=
  if content.length < 50 then none
  else
    match readFirstLastLine content with
    | none => none
    | some (f, l) =>
      match parseTimestamp dp (jp f), parseTimestamp dp (jp l) with
      | some ds, some de =>
        match ds.time, de.time with
        | some s, some e =>
          let durationMs := e - s
          if 0 ≤ durationMs ∧ durationMs < 604800000 then
            some ⟨project, s, e, (durationMs : ℚ) / 3600000, content.length⟩
          else none
        | _, _ => none
      | _, _ => none

/-- A project directory of the storage hierarchy: its encoded name, the
contents of its top-level `*.jsonl` files, and the contents of the `*.jsonl`
files found in `<file>/subagents/` subdirectories. -/
structure ProjectDir where
  name : List Char
  files : List (List Char)
  subagentFiles : List (List Char)

/-- Ordering relation used to sort scanner output (`a.start - b.start`). -/
def startLE (a b : Session) : Prop := a.start ≤ b.start

instance : DecidableRel startLE := fun a b => inferInstanceAs (Decidable (a.start ≤ b.start))

instance : IsTotal Session startLE := ⟨fun a b => le_total a.start b.start⟩

instance : IsTrans Session startLE := ⟨fun _ _ _ h1 h2 => le_trans h1 h2⟩

/-- Source `scanSessions` (src/cli.mjs:99-160): collect sessions from main
and subagent transcript files of every project directory, then sort
ascending by `start`. -/
def scanSessions (jp : List Char → ParsedLine) (dp : List Char → Option ℤ)
    (dirs : List ProjectDir) : List Session :=
  let collected := dirs.flatMap (fun d =>
    d.files.filterMap (addSession jp dp (cleanProjectName d.name)) ++
    d.subagentFiles.filterMap (addSession jp dp (cleanProjectName d.name)))
  List.insertionSort startLE collected

/-- Local calendar day number of an instant, for a fixed-offset timezone
(models `toLocaleDateString('en-CA')`, with day strings identified with
epoch-day numbers since both orders agree). -/
def localDay (tz t : ℤ) : ℤ := (t + tz).fdiv 86400000

/-- Local day-of-week of an instant, 0 = Sunday (models `getDay()`;
epoch day 0 was a Thursday, hence the +4). -/
def dayOfWeek (tz t : ℤ) : ℤ := (localDay tz t + 4) % 7

/-- Local hour-of-day of an instant (models `getHours()`). -/
def hourOfDay (tz t : ℤ) : ℤ := (t + tz).fdiv 3600000 % 24

/-- Severity of a health warning. -/
inductive WLevel
  | info
  | warn
  | alert
deriving DecidableEq

/-- The four fixed warning message templates, carrying the computed value
interpolated into the source's message strings (src/cli.mjs:230-252). -/
inductive WMsg
  | longSessions (count : ℕ)
  | streakDays (days : ℕ)
  | avgSession (hours : ℚ)
  | dailyAvg (hours : ℚ)
deriving DecidableEq

/-- One health warning entry. -/
structure Warning where
  level : WLevel
  msg : WMsg
deriving DecidableEq

/-- Step function of the source's longest-session `reduce`
(src/cli.mjs:173). -/
def pickMax (mx s : Session) : Session :=
  if s.durationHours > mx.durationHours then s else mx

/-- Source `interactiveSessions` (src/cli.mjs:171): sessions within the 8h
interactive threshold. -/
def interactiveFilter (sessions : List Session) : List Session :=
  sessions.filter (fun s => decide (s.durationHours ≤ 8))

/-- Source `maxSessionBase` (src/cli.mjs:172): the interactive sessions when any
exist, otherwise all sessions. -/
def maxSessionBase (sessions : List Session) : List Session :=
  if 0 < (interactiveFilter sessions).length then interactiveFilter sessions
  else sessions

/-- Source `maxSession` (src/cli.mjs:173): `base.reduce(pickMax, base[0])`. -/
def maxSessionOf (sessions : List Session) : Session :=
  (maxSessionBase sessions).foldl pickMax (maxSessionBase sessions).headI

/-- The streak loop of src/cli.mjs:214-224: `prev` is the previous date,
`cur` the current run length, `mx` the maximum seen. -/
def streakLoop (prev : ℤ) (cur mx : ℕ) : List ℤ → ℕ
  | [] => mx
  | d :: rest =>
    if d - prev = 1 then streakLoop d (cur + 1) (max mx (cur + 1)) rest
    else streakLoop d 1 mx rest

/-- Source longest-streak computation over the sorted unique active dates
(`maxStreak = 1; currentStreak = 1; for i in 1..`). -/
def maxStreakOf : List ℤ → ℕ
  | [] => 1
  | d :: rest => streakLoop d 1 1 rest

/-- Length of the longest consecutive-run continuation of a day list after
a previous day `prev` (specification-side helper for the streak claim). -/
def tailRun (prev : ℤ) : List ℤ → ℕ
  | [] => 0
  | d :: rest => if d - prev = 1 then tailRun d rest + 1 else 0

/-- Length of the longest nonempty run of calendar-consecutive days inside a
day list (specification-side notion of "longest streak"). -/
def bestRun : List ℤ → ℕ
  | [] => 0
  | d :: rest => max (tailRun d rest + 1) (bestRun rest)

/-- Insertion-ordered upsert building `projectHours[p] = (projectHours[p] || 0) + d`
(src/cli.mjs:205-209) as an association list. -/
def addProjectHours (m : List (List Char × ℚ)) (p : List Char) (d : ℚ) :
    List (List Char × ℚ) :=
  match m with
  | [] => [(p, d)]
  | (q, h) :: rest =>
    if q = p then (q, h + d) :: rest else (q, h) :: addProjectHours rest p d

/-- Total hours of the sessions starting on local day `d`
(the `byDate[day].hours` entry of src/cli.mjs:178-184). -/
def hoursOnDay (tz : ℤ) (sessions : List Session) (d : ℤ) : ℚ :=
  ((sessions.filter (fun s => localDay tz s.start = d)).map (·.durationHours)).sum

/-- The analysis result record (src/cli.mjs:261-281). -/
structure Stats where
  totalSessions : ℕ
  totalHours : ℚ
  avgDuration : ℚ
  maxSession : Session
  hasAutonomousSessions : Bool
  activeDays : List ℤ
  totalDaysSpan : ℤ
  dowHours : List ℚ
  hourBuckets : List ℚ
  projectHours : List (List Char × ℚ)
  maxStreak : ℕ
  warnings : List Warning
  firstDay : ℤ
  lastDay : ℤ
  recent7Days : ℕ
  recent7Hours : ℚ
  avgDailyHours : ℚ
deriving DecidableEq

/-- Body of source `analyze` (src/cli.mjs:164-282) after the empty-list
early return, with the local timezone `tz` and current instant `now` made
explicit. -/
def analyzeCore (tz now : ℤ) (sessions : List Session) : Stats :=
  let totalHours := (sessions.map (·.durationHours)).sum
  let avgDuration := totalHours / (sessions.length : ℚ)
  let maxSession := maxSessionOf sessions
  let hasAutonomousSessions := sessions.any (fun s => decide (8 < s.durationHours))
  let activeDays := ((sessions.map (fun s => localDay tz s.start)).toFinset).sort (· ≤ ·)
  let firstDay := activeDays.headI
  let lastDay := activeDays.getLastD 0
  let totalDaysSpan := lastDay - firstDay + 1
  let dowHours := (List.range 7).map (fun i =>
    ((sessions.filter (fun s => dayOfWeek tz s.start = (i : ℤ))).map (·.durationHours)).sum)
  let hourBuckets := (List.range 24).map (fun i =>
    ((sessions.filter (fun s => hourOfDay tz s.start = (i : ℤ))).map (·.durationHours)).sum)
  let projectHours := sessions.foldl (fun m s => addProjectHours m s.project s.durationHours) []
  let maxStreak := maxStreakOf activeDays
  let longSessions := sessions.filter (fun s => decide (3 ≤ s.durationHours))
  let avgDailyHours := totalHours / (activeDays.length : ℚ)
  let warnings :=
    (if 0 < longSessions.length then [Warning.mk .warn (.longSessions longSessions.length)] else []) ++
    (if 7 ≤ maxStreak then [Warning.mk .warn (.streakDays maxStreak)] else []) ++
    (if 2 < avgDuration then [Warning.mk .info (.avgSession avgDuration)] else []) ++
    (if 6 < avgDailyHours then [Warning.mk .alert (.dailyAvg avgDailyHours)] else [])
  let today := localDay tz now
  let sevenDaysAgo := localDay tz (now - 7 * 24 * 60 * 60 * 1000)
  let recent7 := activeDays.filter (fun d => decide (sevenDaysAgo < d) && decide (d ≤ today))
  let recent7Hours := (recent7.map (hoursOnDay tz sessions)).sum
  { totalSessions := sessions.length
    totalHours := totalHours
    avgDuration := avgDuration
    maxSession := maxSession
    hasAutonomousSessions := hasAutonomousSessions
    activeDays := activeDays
    totalDaysSpan := totalDaysSpan
    dowHours := dowHours
    hourBuckets := hourBuckets
    projectHours := projectHours
    maxStreak := maxStreak
    warnings := warnings
    firstDay := firstDay
    lastDay := lastDay
    recent7Days := recent7.length
    recent7Hours := recent7Hours
    avgDailyHours := avgDailyHours }

/-- Source `analyze` (src/cli.mjs:164-165): `null` on an empty list. -/
def analyze (tz now : ℤ) (sessions : List Session) : Option Stats :=
  if sessions.length = 0 then none else some (analyzeCore tz now sessions)

/-- Model of `Math.round(x * 100) / 100` (Mathlib `round` is `⌊x + 1/2⌋`, exactly
JS `Math.round`). -/
def round2 (q : ℚ) : ℚ := (round (q * 100) : ℚ) / 100

/-- A rational representable with two decimal places. -/
def IsRounded2 (q : ℚ) : Prop := ∃ n : ℤ, q = (n : ℚ) / 100

/-- Descending-hours ordering used for `topProjects`
(comparator `(a, b) => b[1] - a[1]`). -/
def hoursGE (a b : List Char × ℚ) : Prop := b.2 ≤ a.2

instance : DecidableRel hoursGE := fun a b => inferInstanceAs (Decidable (b.2 ≤ a.2))

instance : IsTotal (List Char × ℚ) hoursGE := ⟨fun a b => le_total b.2 a.2⟩

instance : IsTrans (List Char × ℚ) hoursGE := ⟨fun _ _ _ h1 h2 => le_trans h2 h1⟩

/-- The JSON document built by `buildJsonOutput` (src/cli.mjs:286-325). -/
structure JsonOutput where
  totalSessions : ℕ
  totalHours : ℚ
  activeDays : ℕ
  totalDaysSpan : ℤ
  firstSeen : ℤ
  lastSeen : ℤ
  avgPerSession : ℚ
  avgPerDay : ℚ
  longestHours : ℚ
  longestDate : ℤ
  longestProject : List Char
  hoursByDayOfWeek : List ℚ
  topProjects : List (List Char × ℚ)
  streak : ℕ
  healthWarnings : List WMsg
  last7Hours : ℚ
  last7ActiveDays : ℕ
deriving DecidableEq

/-- Source `buildJsonOutput` (src/cli.mjs:286-325); `longestDate` uses the
local-day key of the session start (the `toLocaleDateString` value), and the
timezone is the same explicit parameter as in `analyzeCore`. -/
def buildJsonOutput (tz : ℤ) (stats : Stats) : JsonOutput :=
  { totalSessions := stats.totalSessions
    totalHours := round2 stats.totalHours
    activeDays := stats.activeDays.length
    totalDaysSpan := stats.totalDaysSpan
    firstSeen := stats.firstDay
    lastSeen := stats.lastDay
    avgPerSession := round2 stats.avgDuration
    avgPerDay := round2 stats.avgDailyHours
    longestHours := round2 stats.maxSession.durationHours
    longestDate := localDay tz stats.maxSession.start
    longestProject := stats.maxSession.project
    hoursByDayOfWeek := stats.dowHours.map round2
    topProjects := (List.insertionSort hoursGE stats.projectHours).map
      (fun p => (p.1, round2 p.2))
    streak := stats.maxStreak
    healthWarnings := stats.warnings.map (·.msg)
    last7Hours := round2 stats.recent7Hours
    last7ActiveDays := stats.recent7Days }

/-- Terminal outputs of `main` (src/cli.mjs:440-478), by kind. -/
inductive Output
  | errNoSessions (jsonMode : Bool)
  | errCouldNotAnalyze (jsonMode : Bool)
  | report (jsonMode : Bool) (stats : Stats)
deriving DecidableEq

/-- Source `main` after scanning (src/cli.mjs:453-477): exit code paired
with the produced output. -/
def mainRun (jsonMode : Bool) (tz now : ℤ) (scanned : List Session) : ℕ × Output :=
  if scanned.length = 0 then (1, .errNoSessions jsonMode)
  else
    match analyze tz now scanned with
    | none => (1, .errCouldNotAnalyze jsonMode)
    | some stats => (0, .report jsonMode stats)

/-! Concrete sample inputs used to instantiate the theorems below. -/

/-- A session of `d` hours starting at the epoch, for analyzer tests. -/
def mkD (d : ℚ) : Session := ⟨"p".toList, 0, 0, d, 100⟩

/-- A line parser whose every line is a JSON object with a truthy numeric
`timestamp`. -/
def jp0 : List Char → ParsedLine := fun _ => .obj (some (.vnum 3600000)) none

/-- A date-string parser on which every string fails to parse
(every `new Date(string)` is an Invalid Date). -/
def dpNone : List Char → Option ℤ := fun _ => none

/-- A 50-byte single-line transcript file. -/
def content0 : List Char := List.replicate 50 'a'

/-- A one-project, one-file storage hierarchy. -/
def dirs0 : List ProjectDir := [⟨"-home-alice-projects-x".toList, [content0], []⟩]

/-- The session scanned from `dirs0` under `jp0`/`dpNone`. -/
def w0 : Session := ⟨"x".toList, 3600000, 3600000, 0, 50⟩

/-- A 1-hour session in project `a`. -/
def sEq1 : Session := ⟨"a".toList, 0, 3600000, 1, 100⟩

/-- A 1-hour session in project `b` (same total hours as `sEq1`). -/
def sEq2 : Session := ⟨"b".toList, 0, 3600000, 1, 100⟩

/-- Sessions of 2h, 5h and 10h (the spec's `maxSession` example). -/
def sessABC : List Session := [mkD 2, mkD 5, mkD 10]

/-! Claim theorems and their supporting lemmas. -/

/-- C7: for every JSON-line parser, date parser and storage hierarchy, in any
traversal order of the directories and files, the session list returned by
the scanner is sorted ascending by the start timestamp. -/
theorem C7_scanSessions_sorted (jp : List Char → ParsedLine)
    (dp : List Char → Option ℤ) (dirs : List ProjectDir) :
    List.Sorted startLE (scanSessions jp dp dirs) :=
  List.sorted_insertionSort startLE _

/-- C9: `analyze` returns `none` exactly on an empty session list, and `main`
terminates with exit code 1 and the "no sessions" message exactly when the
scan produced zero sessions (otherwise exit code 0); there is no crash path. -/
theorem C9_empty_analysis (tz now : ℤ) (sessions : List Session) :
    (analyze tz now sessions = none ↔ sessions = []) ∧
    (∀ jm, (mainRun jm tz now sessions).1 = 1 ↔ sessions = []) ∧
    (∀ jm, sessions = [] → (mainRun jm tz now sessions).2 = Output.errNoSessions jm) := by
  refine ⟨?_, fun jm => ?_, fun jm h => ?_⟩ <;>
    cases sessions <;> simp_all [analyze, mainRun]

/-- C9 witness: on the empty scan, `analyze` is `none` and `main` exits 1
with the "no sessions" message. -/
theorem C9_witness :
    (analyze 0 0 [] = none) ∧ (mainRun false 0 0 []).1 = 1 ∧
    (mainRun false 0 0 []).2 = Output.errNoSessions false :=
  ⟨(C9_empty_analysis 0 0 []).1.mpr rfl,
   ((C9_empty_analysis 0 0 []).2.1 false).mpr rfl,
   (C9_empty_analysis 0 0 []).2.2 false rfl⟩

/-- C10: for every file of at least 2 bytes whose bounded 64 KiB suffix
splits into only empty or whitespace-only fragments, `readFirstLastLine`
returns a last line equal to the first line (not an absent or empty last
line). -/
theorem C10_ws_tail_falls_back (content : List Char) (h2 : 2 ≤ content.length)
    (hws : ∀ l ∈ splitChar '\n' (tailChunkOf content), ∀ c ∈ l, isWS c = true) :
    ∃ fl, readFirstLastLine content = some (fl, fl) := by
  refine ⟨(content.take 8192).takeWhile (fun c => c ≠ '\n'), ?_⟩
  have h0 : ¬ content.length = 0 := by omega
  have hlt : ¬ content.length < 2 := by omega
  have hfilter : (splitChar '\n' (tailChunkOf content)).filter
      (fun l => l.any (fun c => !isWS c)) = [] := by
    rw [List.filter_eq_nil_iff]
    intro l hl
    simp only [List.any_eq_true, Bool.not_eq_true', not_exists]
    intro c
    rw [not_and]
    intro hc
    simp [hws l hl c hc]
  simp [readFirstLastLine, h0, hlt, hfilter]

/-- C10 witness: a 4-byte all-whitespace file yields equal first and last
lines. -/
theorem C10_witness :
    ∃ fl, readFirstLastLine "  \n ".toList = some (fl, fl) :=
  C10_ws_tail_falls_back "  \n ".toList (by decide) (by decide)

/-- C2 counterexample: a valid JSON line whose `timestamp` value is a string
that fails to parse as a date (modelled by the date parser returning `none`
on every string, as `new Date("garbage")` yields an Invalid Date) produces a
PRESENT result that is an invalid time — not the absent result the claim
requires. -/
theorem C2_counterexample :
    (parseTimestamp dpNone (ParsedLine.obj (some (.vstr "garbage".toList)) none)).isSome = true ∧
    parseTimestamp dpNone (ParsedLine.obj (some (.vstr "garbage".toList)) none) =
      some ⟨none⟩ := by
  constructor <;> rfl

/-- C2 amended: `parseTimestamp` never raises (it is total) and returns the
absent result exactly when the line is not valid JSON or neither the
`timestamp` nor the `ts` member holds a truthy value; otherwise the result is
present and equals the JS date of the first truthy value, which is an invalid
time (not a valid point in time) precisely when that value is a string that
fails to parse as a date. -/
theorem C2_amended (dp : List Char → Option ℤ) (line : ParsedLine) :
    (parseTimestamp dp line = none ↔
      line = ParsedLine.invalid ∨
      ∃ t1 t2, line = ParsedLine.obj t1 t2 ∧
        ∀ v, jsOr t1 t2 = some v → jsTruthy v = false) ∧
    (∀ t1 t2 v, line = ParsedLine.obj t1 t2 → jsOr t1 t2 = some v →
      jsTruthy v = true →
      parseTimestamp dp line = some (jsNewDate dp v) ∧
      ((jsNewDate dp v).time = none ↔ ∃ s, v = JSValue.vstr s ∧ dp s = none)) := by
  constructor
  · cases line with
    | invalid => simp [parseTimestamp]
    | obj t1 t2 =>
      simp only [parseTimestamp]
      cases hor : jsOr t1 t2 with
      | none =>
        simp only [true_iff, reduceCtorEq, false_or]
        exact ⟨t1, t2, rfl, by simp [hor]⟩
      | some v =>
        by_cases hv : jsTruthy v = true
        · simp only [hv, if_true, reduceCtorEq, false_iff, false_or, not_exists]
          intro a b ⟨hab, hall⟩
          cases hab
          exact absurd (hall v hor ▸ hv) (by simp [hall v hor])
        · simp only [Bool.not_eq_true] at hv
          simp only [hv, Bool.false_eq_true, if_false, true_iff]
          refine Or.inr ⟨t1, t2, rfl, fun w hw => ?_⟩
          rw [hor] at hw
          cases hw
          exact hv
  · intro t1 t2 v hline hor hv
    subst hline
    refine ⟨by simp [parseTimestamp, hor, hv], ?_⟩
    cases v with
    | vnull => simp [jsNewDate]
    | vbool b => simp [jsNewDate]
    | vnum n => simp [jsNewDate]
    | vstr s =>
      simp only [jsNewDate]
      constructor
      · intro h; exact ⟨s, rfl, h⟩
      · rintro ⟨s', hs', hdp⟩
        cases hs'
        exact hdp

/-- C2 amended witness: a line with a truthy numeric `timestamp` yields the
present, valid date for that number. -/
theorem C2_amended_witness :
    parseTimestamp dpNone (ParsedLine.obj (some (.vnum 7)) none) = some ⟨some 7⟩ :=
  ((C2_amended dpNone (ParsedLine.obj (some (.vnum 7)) none)).2
    (some (.vnum 7)) none (.vnum 7) rfl rfl (by decide)).1

/-- Joining a list headed by a nonempty segment is nonempty. -/
theorem joinChar_cons_ne_nil (sep : Char) (r0 : List Char) (rt : List (List Char))
    (h : r0 ≠ []) : joinChar sep (r0 :: rt) ≠ [] := by
  cases rt with
  | nil => simpa [joinChar] using h
  | cons x xs =>
    simp only [joinChar]
    intro hcontra
    rcases List.append_eq_nil.mp hcontra with ⟨-, h2⟩
    exact List.cons_ne_nil _ _ h2

/-- Every dash-segment of a directory name is nonempty. -/
theorem segmentsOf_mem_ne_nil {d : List Char} {p : List Char}
    (h : p ∈ segmentsOf d) : p ≠ [] := by
  have := List.of_mem_filter h
  simpa using this

/-- C6 counterexample: the directory name encoding `home/alice/foo` — which
is not a temp encoding, not of the shape `home/<user>/projects/<rest>`, and
not `home/<user>` alone, hence an "other shape" under the claim — is NOT
returned unchanged: the code strips the home marker and username and returns
`foo`. -/
theorem C6_counterexample :
    cleanProjectName "-home-alice-foo".toList = "foo".toList ∧
    cleanProjectName "-home-alice-foo".toList ≠ "-home-alice-foo".toList ∧
    List.isPrefixOf "-tmp".toList "-home-alice-foo".toList = false ∧
    segmentsOf "-home-alice-foo".toList =
      ["home".toList, "alice".toList, "foo".toList] := by
  refine ⟨by decide, by decide, by decide, by decide⟩

/-- C6 amended: `cleanProjectName` is total and returns: the temp sentinel
`/tmp` for any name starting with the temp marker; for a name whose nonempty
dash-segments are `home`, a username, `projects` and a nonempty remainder,
the remainder joined with dashes; for segments `home` and a username alone,
the home-root sentinel `~`; and for any name (other than a temp encoding)
whose segments do not begin with `home` followed by at least one more
segment, the input name unchanged. (Names of the shape
`home/<user>/<rest>` without the `projects` marker are also transformed, so
the original claim's catch-all clause does not hold for them.) -/
theorem C6_cleanProjectName_shapes (d : List Char) :
    (List.isPrefixOf "-tmp".toList d = true → cleanProjectName d = "/tmp".toList) ∧
    (List.isPrefixOf "-tmp".toList d = false →
      (∀ user r0 rt,
        segmentsOf d = "home".toList :: user :: "projects".toList :: r0 :: rt →
        cleanProjectName d = joinChar '-' (r0 :: rt)) ∧
      (∀ user, segmentsOf d = ["home".toList, user] →
        cleanProjectName d = "~".toList) ∧
      ((∀ u rs, segmentsOf d ≠ "home".toList :: u :: rs) →
        cleanProjectName d = d)) := by
  constructor
  · intro htmp
    unfold cleanProjectName
    rw [if_pos htmp]
  · intro htmp
    have hnot : ¬ (List.isPrefixOf "-tmp".toList d = true) := by
      intro h
      rw [htmp] at h
      exact Bool.false_ne_true h
    refine ⟨fun user r0 rt hseg => ?_, fun user hseg => ?_, fun hother => ?_⟩
    · have hr0 : r0 ≠ [] := segmentsOf_mem_ne_nil (by rw [hseg]; simp)
      have hj : joinChar '-' (r0 :: rt) ≠ [] := joinChar_cons_ne_nil '-' r0 rt hr0
      unfold cleanProjectName
      rw [if_neg hnot, hseg]
      show (if "home".toList = "home".toList then
        homeLabel ("projects".toList :: r0 :: rt) else d) = joinChar '-' (r0 :: rt)
      rw [if_pos rfl]
      simp [homeLabel, hj]
    · unfold cleanProjectName
      rw [if_neg hnot, hseg]
      show (if "home".toList = "home".toList then homeLabel [] else d) = "~".toList
      rw [if_pos rfl]
      rfl
    · unfold cleanProjectName
      rw [if_neg hnot]
      cases hseg : segmentsOf d with
      | nil => rfl
      | cons p0 tail =>
        cases tail with
        | nil => rfl
        | cons p1 prest =>
          have hp0 : p0 ≠ "home".toList := by
            intro h
            exact hother p1 prest (by rw [hseg, h])
          show (if p0 = "home".toList then homeLabel prest else d) = d
          rw [if_neg hp0]

/-- C6 amended witness: the three recognized shapes at concrete names. -/
theorem C6_shapes_witness :
    cleanProjectName "-tmp-x".toList = "/tmp".toList ∧
    cleanProjectName "-home-alice-projects-cc-loop".toList = "cc-loop".toList ∧
    cleanProjectName "-home-alice".toList = "~".toList ∧
    cleanProjectName "xyz".toList = "xyz".toList :=
  ⟨(C6_cleanProjectName_shapes "-tmp-x".toList).1 (by decide),
   by
    have h := ((C6_cleanProjectName_shapes "-home-alice-projects-cc-loop".toList).2
      (by decide)).1 "alice".toList "cc".toList ["loop".toList] (by decide)
    rw [h]; decide,
   ((C6_cleanProjectName_shapes "-home-alice".toList).2 (by decide)).2.1
     "alice".toList (by decide),
   ((C6_cleanProjectName_shapes "xyz".toList).2 (by decide)).2.2 (by
     intro u rs h
     have hx : segmentsOf "xyz".toList = [['x', 'y', 'z']] := by decide
     rw [hx] at h
     injection h with h1 h2
     exact absurd h1 (by decide))⟩

/-- Inversion: any successfully recorded session came from a file of at
least 50 bytes and carries a duration derived from parsed endpoint
timestamps within the `[0, 7 days)` window. -/
theorem addSession_eq_some {jp : List Char → ParsedLine} {dp : List Char → Option ℤ}
    {proj content : List Char} {s : Session}
    (h : addSession jp dp proj content = some s) :
    50 ≤ content.length ∧ s.sizeBytes = content.length ∧ s.project = proj ∧
    ∃ a b : ℤ, s.durationHours = ((b - a : ℤ) : ℚ) / 3600000 ∧
      0 ≤ b - a ∧ b - a < 604800000 := by
  unfold addSession at h
  split at h
  · exact absurd h (by simp)
  · rename_i hlen
    split at h
    · exact absurd h (by simp)
    · rename_i f l heq
      split at h
      · rename_i ds de hds hde
        split at h
        · rename_i a b ha hb
          dsimp only at h
          split at h
          · rename_i hcond
            rw [Option.some.injEq] at h
            subst h
            exact ⟨by omega, rfl, rfl, a, b, rfl, hcond.1, hcond.2⟩
          · exact absurd h (by simp)
        · exact absurd h (by simp)
      · exact absurd h (by simp)

/-- C1: every session in the scanner's output satisfies
`0 ≤ durationHours < 168` and `sizeBytes ≥ 50`; and no session is recorded
for a file that is under 50 bytes, whose derived end precedes its start, or
whose span is at least 168 hours. -/
theorem C1_session_invariants (jp : List Char → ParsedLine)
    (dp : List Char → Option ℤ) (dirs : List ProjectDir) :
    (∀ s ∈ scanSessions jp dp dirs,
      0 ≤ s.durationHours ∧ s.durationHours < 168 ∧ 50 ≤ s.sizeBytes) ∧
    (∀ proj content, content.length < 50 → addSession jp dp proj content = none) ∧
    (∀ proj content f l ds de a b, readFirstLastLine content = some (f, l) →
      parseTimestamp dp (jp f) = some ds → parseTimestamp dp (jp l) = some de →
      ds.time = some a → de.time = some b →
      (b < a ∨ 604800000 ≤ b - a) → addSession jp dp proj content = none) := by
  refine ⟨?_, ?_, ?_⟩
  · intro s hs
    unfold scanSessions at hs
    rw [List.mem_insertionSort] at hs
    simp only [List.mem_flatMap, List.mem_append, List.mem_filterMap] at hs
    obtain ⟨d, -, hcase⟩ := hs
    have hadd : ∃ c, addSession jp dp (cleanProjectName d.name) c = some s := by
      rcases hcase with ⟨c, -, hadd⟩ | ⟨c, -, hadd⟩ <;> exact ⟨c, hadd⟩
    obtain ⟨c, hadd⟩ := hadd
    obtain ⟨hlen, hsize, -, a, b, hdur, h0, hlt⟩ := addSession_eq_some hadd
    refine ⟨?_, ?_, by omega⟩
    · rw [hdur]
      apply div_nonneg _ (by norm_num)
      exact_mod_cast h0
    · rw [hdur, div_lt_iff₀ (by norm_num : (0 : ℚ) < 3600000)]
      have hc : ((b - a : ℤ) : ℚ) < ((604800000 : ℤ) : ℚ) := by exact_mod_cast hlt
      calc ((b - a : ℤ) : ℚ) < ((604800000 : ℤ) : ℚ) := hc
        _ = 168 * 3600000 := by norm_num
  · intro proj content hlen
    unfold addSession
    rw [if_pos hlen]
  · intro proj content f l ds de a b hr hp1 hp2 ha hb hbad
    unfold addSession
    split
    · rfl
    · rw [hr]
      dsimp only
      rw [hp1, hp2]
      dsimp only
      rw [ha, hb]
      dsimp only
      rw [if_neg (by omega)]

/-- C1 witness: the session scanned from the sample hierarchy satisfies the
invariants. -/
theorem C1_witness :
    0 ≤ w0.durationHours ∧ w0.durationHours < 168 ∧ 50 ≤ w0.sizeBytes :=
  (C1_session_invariants jp0 dpNone dirs0).1 w0 (by
    have h : scanSessions jp0 dpNone dirs0 = [w0] := by with_unfolding_all rfl
    rw [h]
    exact List.mem_singleton.mpr rfl)

/-- The fold result is the initial element or a list member. -/
theorem foldl_pickMax_mem (l : List Session) (a : Session) :
    l.foldl pickMax a = a ∨ l.foldl pickMax a ∈ l := by
  induction l generalizing a with
  | nil => exact Or.inl rfl
  | cons b t ih =>
    rw [List.foldl_cons]
    rcases ih (pickMax a b) with h | h
    · rw [h]
      unfold pickMax
      split
      · exact Or.inr (by simp)
      · exact Or.inl rfl
    · exact Or.inr (List.mem_cons_of_mem b h)

/-- The fold result dominates the initial element's duration. -/
theorem le_foldl_pickMax (l : List Session) (a : Session) :
    a.durationHours ≤ (l.foldl pickMax a).durationHours := by
  induction l generalizing a with
  | nil => simp
  | cons b t ih =>
    rw [List.foldl_cons]
    refine le_trans ?_ (ih (pickMax a b))
    unfold pickMax
    split
    · rename_i h
      exact le_of_lt h
    · exact le_refl _

/-- The fold result dominates every list member's duration. -/
theorem foldl_pickMax_ge (l : List Session) (a : Session) :
    ∀ s ∈ l, s.durationHours ≤ (l.foldl pickMax a).durationHours := by
  induction l generalizing a with
  | nil => intro s hs; simp at hs
  | cons b t ih =>
    intro s hs
    rw [List.foldl_cons]
    rcases List.mem_cons.mp hs with heq | hs'
    · subst heq
      refine le_trans ?_ (le_foldl_pickMax t (pickMax a s))
      unfold pickMax
      split
      · exact le_refl _
      · rename_i hng
        exact le_of_not_lt hng
    · exact ih (pickMax a b) s hs'

/-- C3: on a non-empty session list, `maxSession` is a maximal-duration
session among those with `durationHours ≤ 8` when any exist, and the overall
maximum when every session exceeds 8h; `hasAutonomousSessions` is true
exactly when some session exceeded the 8h interactive threshold (the
condition that excludes it from the preferential selection). -/
theorem C3_maxSession_selection (tz now : ℤ) (sessions : List Session)
    (hne : sessions ≠ []) :
    ((∃ s ∈ sessions, s.durationHours ≤ 8) →
      (analyzeCore tz now sessions).maxSession ∈ sessions ∧
      (analyzeCore tz now sessions).maxSession.durationHours ≤ 8 ∧
      ∀ s ∈ sessions, s.durationHours ≤ 8 →
        s.durationHours ≤ (analyzeCore tz now sessions).maxSession.durationHours) ∧
    ((∀ s ∈ sessions, 8 < s.durationHours) →
      (analyzeCore tz now sessions).maxSession ∈ sessions ∧
      ∀ s ∈ sessions,
        s.durationHours ≤ (analyzeCore tz now sessions).maxSession.durationHours) ∧
    ((analyzeCore tz now sessions).hasAutonomousSessions = true ↔
      ∃ s ∈ sessions, 8 < s.durationHours) ∧
    analyze tz now sessions = some (analyzeCore tz now sessions) := by
  have hmaxeq : (analyzeCore tz now sessions).maxSession = maxSessionOf sessions := rfl
  have hautoeq : (analyzeCore tz now sessions).hasAutonomousSessions
      = sessions.any (fun s => decide (8 < s.durationHours)) := rfl
  refine ⟨?_, ?_, ?_, ?_⟩
  · rintro ⟨s0, hs0, h80⟩
    have hs0I : s0 ∈ interactiveFilter sessions :=
      List.mem_filter.mpr ⟨hs0, by simpa using h80⟩
    have hpos : 0 < (interactiveFilter sessions).length :=
      List.length_pos_of_mem hs0I
    have hbase : maxSessionBase sessions = interactiveFilter sessions := by
      unfold maxSessionBase
      rw [if_pos hpos]
    have hIne : interactiveFilter sessions ≠ [] := List.ne_nil_of_length_pos hpos
    have hheadI : (interactiveFilter sessions).headI ∈ interactiveFilter sessions := by
      cases hI : interactiveFilter sessions with
      | nil => exact absurd hI hIne
      | cons x xs => simp [List.headI]
    have hmemI : maxSessionOf sessions ∈ interactiveFilter sessions := by
      unfold maxSessionOf
      rw [hbase]
      rcases foldl_pickMax_mem (interactiveFilter sessions)
        (interactiveFilter sessions).headI with h | h
      · rw [h]; exact hheadI
      · exact h
    have hmem : maxSessionOf sessions ∈ sessions :=
      List.mem_of_mem_filter hmemI
    have h8 : (maxSessionOf sessions).durationHours ≤ 8 := by
      have := (List.mem_filter.mp hmemI).2
      simpa using this
    rw [hmaxeq]
    refine ⟨hmem, h8, fun s hs hs8 => ?_⟩
    have hsI : s ∈ interactiveFilter sessions :=
      List.mem_filter.mpr ⟨hs, by simpa using hs8⟩
    unfold maxSessionOf
    rw [hbase]
    exact foldl_pickMax_ge _ _ s hsI
  · intro hall
    have hInil : interactiveFilter sessions = [] := by
      rw [interactiveFilter, List.filter_eq_nil_iff]
      intro s hs
      simpa using not_le.mpr (hall s hs)
    have hbase : maxSessionBase sessions = sessions := by
      unfold maxSessionBase
      rw [hInil]
      simp
    have hheadI : sessions.headI ∈ sessions := by
      cases hs : sessions with
      | nil => exact absurd hs hne
      | cons x xs => simp [List.headI]
    rw [hmaxeq]
    constructor
    · unfold maxSessionOf
      rw [hbase]
      rcases foldl_pickMax_mem sessions sessions.headI with h | h
      · rw [h]; exact hheadI
      · exact h
    · intro s hs
      unfold maxSessionOf
      rw [hbase]
      exact foldl_pickMax_ge _ _ s hs
  · rw [hautoeq]
    simp [List.any_eq_true]
  · unfold analyze
    rw [if_neg (by simpa using hne)]

/-- C3 witness: with 2h, 5h and 10h sessions the selected longest session is
interactive (≤ 8h) and the autonomous-session flag is set. -/
theorem C3_witness :
    (analyzeCore 0 0 sessABC).maxSession ∈ sessABC ∧
    (analyzeCore 0 0 sessABC).maxSession.durationHours ≤ 8 ∧
    (analyzeCore 0 0 sessABC).hasAutonomousSessions = true := by
  have h := C3_maxSession_selection 0 0 sessABC (by simp [sessABC])
  have h1 := h.1 ⟨mkD 2, by simp [sessABC], by norm_num [mkD]⟩
  exact ⟨h1.1, h1.2.1, h.2.2.1.mpr ⟨mkD 10, by simp [sessABC], by norm_num [mkD]⟩⟩

/-- C4: on a non-empty session list the warnings are exactly, in this fixed
order: a warn entry when some session lasts at least 3h (carrying the count
of such sessions), a warn entry when the longest streak is at least 7 days,
an info entry when the average session duration exceeds 2h, and an alert
entry when the average hours per active day exceeds 6h; a session of exactly
3h triggers the long-session warning and one of 2.999h does not. -/
theorem C4_warnings_order (tz now : ℤ) (sessions : List Session) (_hne : sessions ≠ []) :
    ((analyzeCore tz now sessions).warnings =
      (if ∃ s ∈ sessions, 3 ≤ s.durationHours then
        [Warning.mk .warn (.longSessions
          (sessions.filter (fun s => decide (3 ≤ s.durationHours))).length)]
      else []) ++
      (if 7 ≤ (analyzeCore tz now sessions).maxStreak then
        [Warning.mk .warn (.streakDays (analyzeCore tz now sessions).maxStreak)]
      else []) ++
      (if 2 < (analyzeCore tz now sessions).avgDuration then
        [Warning.mk .info (.avgSession (analyzeCore tz now sessions).avgDuration)]
      else []) ++
      (if 6 < (analyzeCore tz now sessions).avgDailyHours then
        [Warning.mk .alert (.dailyAvg (analyzeCore tz now sessions).avgDailyHours)]
      else [])) ∧
    (Warning.mk .warn (.longSessions 1) ∈ (analyzeCore 0 0 [mkD 3]).warnings) ∧
    (∀ n, Warning.mk .warn (.longSessions n) ∉
      (analyzeCore 0 0 [mkD (2999/1000)]).warnings) := by
  refine ⟨?_, ?_, ?_⟩
  · have hw : (analyzeCore tz now sessions).warnings =
        (if 0 < (sessions.filter (fun s => decide (3 ≤ s.durationHours))).length then
          [Warning.mk .warn (.longSessions
            (sessions.filter (fun s => decide (3 ≤ s.durationHours))).length)]
        else []) ++
        (if 7 ≤ (analyzeCore tz now sessions).maxStreak then
          [Warning.mk .warn (.streakDays (analyzeCore tz now sessions).maxStreak)]
        else []) ++
        (if 2 < (analyzeCore tz now sessions).avgDuration then
          [Warning.mk .info (.avgSession (analyzeCore tz now sessions).avgDuration)]
        else []) ++
        (if 6 < (analyzeCore tz now sessions).avgDailyHours then
          [Warning.mk .alert (.dailyAvg (analyzeCore tz now sessions).avgDailyHours)]
        else []) := rfl
    have hiff : (0 < (sessions.filter (fun s => decide (3 ≤ s.durationHours))).length) ↔
        (∃ s ∈ sessions, 3 ≤ s.durationHours) := by
      rw [List.length_pos_iff_exists_mem]
      constructor
      · rintro ⟨a, ha⟩
        exact ⟨a, (List.mem_filter.mp ha).1, by simpa using (List.mem_filter.mp ha).2⟩
      · rintro ⟨a, ha, h3⟩
        exact ⟨a, List.mem_filter.mpr ⟨ha, by simpa using h3⟩⟩
    rw [hw, if_congr hiff rfl rfl]
  · have h3 : (analyzeCore 0 0 [mkD 3]).warnings =
        [⟨.warn, .longSessions 1⟩, ⟨.info, .avgSession 3⟩] := by with_unfolding_all rfl
    rw [h3]
    simp
  · intro n
    have h2 : (analyzeCore 0 0 [mkD (2999/1000)]).warnings =
        [⟨.info, .avgSession (2999/1000)⟩] := by with_unfolding_all rfl
    rw [h2]
    simp

/-- C4 witness: a single exactly-3h session produces the long-session warn
entry. -/
theorem C4_witness :
    Warning.mk .warn (.longSessions 1) ∈ (analyzeCore 0 0 [mkD 3]).warnings :=
  (C4_warnings_order 0 0 [mkD 3] (by simp)).2.1

/-- The streak loop computes the maximum of `mx`, the current run extended
by the longest consecutive continuation, and the best run in the rest. -/
theorem streakLoop_eq (rest : List ℤ) : ∀ (prev : ℤ) (cur mx : ℕ),
    cur ≤ mx → 1 ≤ mx →
    streakLoop prev cur mx rest = max mx (max (cur + tailRun prev rest) (bestRun rest)) := by
  induction rest with
  | nil =>
    intro prev cur mx hcm h1
    simp [streakLoop, tailRun, bestRun]
    omega
  | cons d rs ih =>
    intro prev cur mx hcm h1
    by_cases hd : d - prev = 1
    · rw [streakLoop, if_pos hd, ih d (cur + 1) (max mx (cur + 1)) (le_max_right _ _)
        (le_trans h1 (le_max_left _ _)), tailRun, if_pos hd, bestRun]
      omega
    · rw [streakLoop, if_neg hd, ih d 1 mx h1 h1, tailRun, if_neg hd, bestRun]
      omega

/-- A nonempty day list has a run of at least one day. -/
theorem bestRun_pos (d : ℤ) (rest : List ℤ) : 1 ≤ bestRun (d :: rest) := by
  rw [bestRun]
  omega

/-- On a nonempty day list the source loop computes the longest run. -/
theorem maxStreakOf_eq_bestRun (days : List ℤ) (h : days ≠ []) :
    maxStreakOf days = bestRun days := by
  cases days with
  | nil => exact absurd rfl h
  | cons d rest =>
    rw [maxStreakOf, streakLoop_eq rest d 1 1 le_rfl le_rfl, bestRun]
    have := bestRun_pos d rest
    rw [bestRun] at this
    omega

/-- A consecutive chain prefix is bounded by `tailRun`. -/
theorem chain_length_le_tailRun (t : List ℤ) : ∀ (prev : ℤ) (post : List ℤ),
    List.Chain (fun a b => b - a = 1) prev t →
    t.length ≤ tailRun prev (t ++ post) := by
  induction t with
  | nil => intro prev post _; simp
  | cons d t' ih =>
    intro prev post hch
    rcases List.chain_cons.mp hch with ⟨hd, hch'⟩
    rw [List.cons_append, tailRun, if_pos hd]
    have := ih d post hch'
    simpa using Nat.add_le_add_right this 1

/-- Any contiguous consecutive run is bounded by `bestRun` (with floor 1). -/
theorem infix_chain_le_bestRun (pre : List ℤ) : ∀ (t post : List ℤ),
    List.Chain' (fun a b => b - a = 1) t →
    t.length ≤ max 1 (bestRun (pre ++ t ++ post)) := by
  induction pre with
  | nil =>
    intro t post hch
    cases t with
    | nil => simp
    | cons d t' =>
      rw [List.nil_append, List.cons_append, bestRun]
      have hch2 : List.Chain (fun a b => b - a = 1) d t' := hch
      have := chain_length_le_tailRun t' d post hch2
      simp only [List.length_cons]
      omega
  | cons p ps ih =>
    intro t post hch
    have hmono : bestRun (ps ++ t ++ post) ≤ bestRun (p :: (ps ++ t ++ post)) := by
      rw [bestRun]; omega
    have hih := ih t post hch
    simp only [List.cons_append, List.append_assoc] at hmono hih ⊢
    omega

/-- The value of `tailRun` is realized by an actual chain prefix. -/
theorem tailRun_realized (l : List ℤ) : ∀ prev : ℤ,
    ∃ t post, l = t ++ post ∧ List.Chain (fun a b => b - a = 1) prev t ∧
      t.length = tailRun prev l := by
  induction l with
  | nil => intro prev; exact ⟨[], [], rfl, List.Chain.nil, rfl⟩
  | cons d rs ih =>
    intro prev
    by_cases hd : d - prev = 1
    · obtain ⟨t', post, heq, hch, hlen⟩ := ih d
      refine ⟨d :: t', post, by simp [heq], List.chain_cons.mpr ⟨hd, hch⟩, ?_⟩
      rw [tailRun, if_pos hd, List.length_cons, hlen]
    · exact ⟨[], d :: rs, rfl, List.Chain.nil, by rw [tailRun, if_neg hd]; rfl⟩

/-- The value of `bestRun` is realized by an actual contiguous chain. -/
theorem bestRun_realized (l : List ℤ) (h : l ≠ []) :
    ∃ pre t post, l = pre ++ t ++ post ∧ List.Chain' (fun a b => b - a = 1) t ∧
      t.length = bestRun l := by
  induction l with
  | nil => exact absurd rfl h
  | cons d rs ih =>
    rcases Nat.le_total (bestRun rs) (tailRun d rs + 1) with hle | hle
    · obtain ⟨t', post, heq, hch, hlen⟩ := tailRun_realized rs d
      refine ⟨[], d :: t', post, by simp [heq], hch, ?_⟩
      rw [bestRun, List.length_cons, hlen]
      omega
    · have hrs : rs ≠ [] := by
        intro hnil
        rw [hnil] at hle
        simp [bestRun] at hle
      obtain ⟨pre, t, post, heq, hch, hlen⟩ := ih hrs
      refine ⟨d :: pre, t, post, by simp [heq], hch, ?_⟩
      rw [bestRun, hlen]
      omega

/-- The active-day list of a non-empty analysis is non-empty. -/
theorem activeDays_ne_nil (tz now : ℤ) (sessions : List Session) (hne : sessions ≠ []) :
    (analyzeCore tz now sessions).activeDays ≠ [] := by
  cases sessions with
  | nil => exact absurd rfl hne
  | cons s rest =>
    have hAD : (analyzeCore tz now (s :: rest)).activeDays =
        Finset.sort (· ≤ ·) (((s :: rest).map (fun x => localDay tz x.start)).toFinset) := rfl
    have hmem : localDay tz s.start ∈ (analyzeCore tz now (s :: rest)).activeDays := by
      rw [hAD, Finset.mem_sort]
      simp
    exact List.ne_nil_of_mem hmem

/-- C5: on a non-empty session list, `maxStreak` is at least 1 and equals
the length of the longest contiguous run of calendar-consecutive dates in
the sorted unique active-day list (adjacent dates differing by exactly one
day); in particular days `D, D+1, D+2, D+10` give streak 3 and a single day
gives streak 1. -/
theorem C5_longest_streak (tz now : ℤ) (sessions : List Session) (hne : sessions ≠ []) :
    (1 ≤ (analyzeCore tz now sessions).maxStreak) ∧
    ((analyzeCore tz now sessions).maxStreak =
      maxStreakOf (analyzeCore tz now sessions).activeDays) ∧
    (∀ pre t post, (analyzeCore tz now sessions).activeDays = pre ++ t ++ post →
      List.Chain' (fun a b => b - a = 1) t →
      t.length ≤ (analyzeCore tz now sessions).maxStreak) ∧
    (∃ pre t post, (analyzeCore tz now sessions).activeDays = pre ++ t ++ post ∧
      List.Chain' (fun a b => b - a = 1) t ∧
      t.length = (analyzeCore tz now sessions).maxStreak) ∧
    (∀ D : ℤ, maxStreakOf [D, D + 1, D + 2, D + 10] = 3 ∧ maxStreakOf [D] = 1) := by
  have hms : (analyzeCore tz now sessions).maxStreak =
      maxStreakOf (analyzeCore tz now sessions).activeDays := rfl
  have hADne : (analyzeCore tz now sessions).activeDays ≠ [] :=
    activeDays_ne_nil tz now sessions hne
  have heqb : maxStreakOf (analyzeCore tz now sessions).activeDays =
      bestRun (analyzeCore tz now sessions).activeDays :=
    maxStreakOf_eq_bestRun _ hADne
  have hbpos : 1 ≤ bestRun (analyzeCore tz now sessions).activeDays := by
    cases hc : (analyzeCore tz now sessions).activeDays with
    | nil => exact absurd hc hADne
    | cons d rest => exact bestRun_pos d rest
  refine ⟨?_, hms, ?_, ?_, ?_⟩
  · rw [hms, heqb]
    exact hbpos
  · intro pre t post heq hch
    rw [hms, heqb]
    have hle := infix_chain_le_bestRun pre t post hch
    rw [← heq] at hle
    omega
  · obtain ⟨pre, t, post, heq, hch, hlen⟩ := bestRun_realized _ hADne
    exact ⟨pre, t, post, heq, hch, by rw [hms, heqb, ← hlen]⟩
  · intro D
    have e1 : D + 1 - D = 1 := by ring
    have e2 : D + 2 - (D + 1) = 1 := by ring
    have e3 : ¬(D + 10 - (D + 2) = 1) := by intro h; omega
    constructor
    · simp [maxStreakOf, streakLoop, e1, e2, e3]
    · simp [maxStreakOf, streakLoop]

/-- C5 witness: streak bounds at a concrete session list and concrete days. -/
theorem C5_witness :
    1 ≤ (analyzeCore 0 0 [mkD 3]).maxStreak ∧
    maxStreakOf [5, 5 + 1, 5 + 2, 5 + 10] = 3 :=
  ⟨(C5_longest_streak 0 0 [mkD 3] (by simp)).1,
   ((C5_longest_streak 0 0 [mkD 3] (by simp)).2.2.2.2 5).1⟩

/-- Rounding to two decimals is monotone. -/
theorem round2_mono {a b : ℚ} (h : a ≤ b) : round2 a ≤ round2 b := by
  unfold round2
  have hr : round (a * 100) ≤ round (b * 100) := by
    rw [round_eq, round_eq]
    exact Int.floor_le_floor (by linarith)
  have hc : ((round (a * 100) : ℤ) : ℚ) ≤ ((round (b * 100) : ℤ) : ℚ) := by
    exact_mod_cast hr
  linarith

/-- C8 amended: every hour-valued numeric field of the JSON output is
rounded to exactly 2 decimal places, and `topProjects` is sorted in
descending (non-increasing) order by hours — not strictly: two projects
with equal totals yield equal adjacent entries. -/
theorem C8_json_rounded (tz : ℤ) (stats : Stats) :
    ((buildJsonOutput tz stats).totalHours = round2 stats.totalHours ∧
     (buildJsonOutput tz stats).avgPerSession = round2 stats.avgDuration ∧
     (buildJsonOutput tz stats).avgPerDay = round2 stats.avgDailyHours ∧
     (buildJsonOutput tz stats).longestHours = round2 stats.maxSession.durationHours ∧
     (buildJsonOutput tz stats).last7Hours = round2 stats.recent7Hours) ∧
    (IsRounded2 (buildJsonOutput tz stats).totalHours ∧
     IsRounded2 (buildJsonOutput tz stats).avgPerSession ∧
     IsRounded2 (buildJsonOutput tz stats).avgPerDay ∧
     IsRounded2 (buildJsonOutput tz stats).longestHours ∧
     IsRounded2 (buildJsonOutput tz stats).last7Hours) ∧
    (∀ x ∈ (buildJsonOutput tz stats).hoursByDayOfWeek, IsRounded2 x) ∧
    (∀ p ∈ (buildJsonOutput tz stats).topProjects, IsRounded2 p.2) ∧
    List.Pairwise (fun a b : List Char × ℚ => b.2 ≤ a.2)
      (buildJsonOutput tz stats).topProjects := by
  refine ⟨⟨rfl, rfl, rfl, rfl, rfl⟩,
    ⟨⟨_, rfl⟩, ⟨_, rfl⟩, ⟨_, rfl⟩, ⟨_, rfl⟩, ⟨_, rfl⟩⟩, ?_, ?_, ?_⟩
  · intro x hx
    have hx' : x ∈ stats.dowHours.map round2 := hx
    obtain ⟨y, -, rfl⟩ := List.mem_map.mp hx'
    exact ⟨_, rfl⟩
  · intro p hp
    have hp' : p ∈ (List.insertionSort hoursGE stats.projectHours).map
        (fun q => (q.1, round2 q.2)) := hp
    obtain ⟨q, -, rfl⟩ := List.mem_map.mp hp'
    exact ⟨_, rfl⟩
  · have hs : List.Pairwise hoursGE (List.insertionSort hoursGE stats.projectHours) :=
      List.sorted_insertionSort hoursGE _
    exact hs.map _ (fun a b hab => round2_mono hab)

/-- C8 counterexample: the analysis of two equal-duration sessions in
projects `a` and `b` yields a `topProjects` list with two equal hour values,
which is not strictly descending. -/
theorem C8_counterexample :
    (buildJsonOutput 0 (analyzeCore 0 0 [sEq1, sEq2])).topProjects =
      [("a".toList, 1), ("b".toList, 1)] ∧
    ¬ List.Pairwise (fun a b : List Char × ℚ => b.2 < a.2)
      (buildJsonOutput 0 (analyzeCore 0 0 [sEq1, sEq2])).topProjects := by
  have h : (buildJsonOutput 0 (analyzeCore 0 0 [sEq1, sEq2])).topProjects =
      [("a".toList, 1), ("b".toList, 1)] := by with_unfolding_all rfl
  refine ⟨h, ?_⟩
  rw [h]
  intro hp
  have hlt := List.rel_of_pairwise_cons hp
    (show ("b".toList, (1 : ℚ)) ∈ [("b".toList, (1 : ℚ))] by simp)
  norm_num at hlt

/-- C8 witness: a concrete JSON output with a rounded member and the
descending ordering. -/
theorem C8_witness :
    IsRounded2 (1 : ℚ) ∧
    List.Pairwise (fun a b : List Char × ℚ => b.2 ≤ a.2)
      (buildJsonOutput 0 (analyzeCore 0 0 [sEq1, sEq2])).topProjects := by
  have h := C8_json_rounded 0 (analyzeCore 0 0 [sEq1, sEq2])
  refine ⟨?_, h.2.2.2.2⟩
  have heq : (buildJsonOutput 0 (analyzeCore 0 0 [sEq1, sEq2])).topProjects =
      [("a".toList, 1), ("b".toList, 1)] := by with_unfolding_all rfl
  have hm : (("a".toList, (1 : ℚ))) ∈
      (buildJsonOutput 0 (analyzeCore 0 0 [sEq1, sEq2])).topProjects := by
    rw [heq]; simp
  simpa using h.2.2.2.1 _ hm

end CCStats
